import Mathlib

/-!
Verification of the summarization core of `summarize-hub` (`src/lib/summarize.ts`).

Text is modelled as `List Char` (JavaScript strings viewed as character
sequences).  The inference engine is modelled as an oracle supplying the
outcome of each chat-completion call in order; callbacks are modelled as an
event trace.
-/

/-- JavaScript-style whitespace test (ASCII subset used by `String.prototype.trim`). -/
def isWS (c : Char) : Bool :=
  c = ' ' || c = '\t' || c = '\n' || c = '\r'

/-- `String.prototype.trim`: drop whitespace from both ends. -/
def trim (l : List Char) : List Char :=
  ((l.dropWhile isWS).reverse.dropWhile isWS).reverse

/-- All non-whitespace characters, in order ("ignoring whitespace normalization"). -/
def stripWS (l : List Char) : List Char :=
  l.filter (fun c => !isWS c)

/-- Sentence-terminal punctuation, the character class `[.!?]` of the chunker's regex. -/
def isTerm (c : Char) : Bool :=
  c = '.' || c = '!' || c = '?'

theorem dropWhile_length_le {α : Type} (p : α → Bool) :
    ∀ l : List α, (l.dropWhile p).length ≤ l.length
  | [] => Nat.le_refl _
  | a :: l => by
    rw [List.dropWhile_cons]
    split
    · exact Nat.le_trans (dropWhile_length_le p l) (Nat.le_succ _)
    · exact Nat.le_refl _

/-- All matches of the global regex `/[^.!?]+[.!?]+/g` on the text, in order:
a maximal run of non-terminators followed by the maximal run of terminators.
Leading terminator characters before a match are skipped (the regex cannot
start a match on them), and a trailing run of non-terminators with no
terminator after it yields no further match.  In the second branch the head
`d` of `rest2` necessarily satisfies `isTerm`, so the terminator group
`takeWhile isTerm rest2` is written `d :: takeWhile isTerm ds`. -/
def sentSplit : List Char → List (List Char)
  | [] => []
  | c :: rest =>
    if isTerm c then sentSplit rest
    else
      match h : List.dropWhile (fun x => !isTerm x) rest with
      | [] => []
      | d :: ds =>
        (c :: (List.takeWhile (fun x => !isTerm x) rest ++ d :: List.takeWhile isTerm ds))
          :: sentSplit (List.dropWhile isTerm ds)
termination_by l => l.length
decreasing_by
  · simp
  · simp only [List.length_cons]
    have h1 : (List.dropWhile (fun x => !isTerm x) rest).length ≤ rest.length :=
      dropWhile_length_le _ _
    rw [h] at h1
    have h2 : (List.dropWhile isTerm ds).length ≤ ds.length :=
      dropWhile_length_le _ _
    simp only [List.length_cons] at h1
    omega

/-- `text.match(/[^.!?]+[.!?]+/g) || [text]`: the sentence list, falling back to
the whole text when there is no match. -/
def sentences (text : List Char) : List (List Char) :=
  match sentSplit text with
  | [] => [text]
  | s :: ss => s :: ss

/-- The greedy accumulation loop of `chunkText`: `cur` is `currentChunk`,
`acc` the chunks pushed so far (in order). -/
def chunkLoop (maxChunkSize : Nat) : List (List Char) → List Char → List (List Char) → List (List Char)
  | [], cur, acc => if cur.isEmpty then acc else acc ++ [trim cur]
  | s :: rest, cur, acc =>
    if (cur ++ s).length ≤ maxChunkSize then chunkLoop maxChunkSize rest (cur ++ s) acc
    else if cur.isEmpty then chunkLoop maxChunkSize rest s acc
    else chunkLoop maxChunkSize rest s (acc ++ [trim cur])

/-- `chunkText(text, maxChunkSize = 10_000)` from `src/lib/summarize.ts`. -/
def chunkText (text : List Char) (maxChunkSize : Nat := 10000) : List (List Char) :=
  if text.length ≤ maxChunkSize then [text]
  else chunkLoop maxChunkSize (sentences text) [] []

/-- Concatenation of a list of texts. -/
def joinAll : List (List Char) → List Char
  | [] => []
  | a :: r => a ++ joinAll r

/-! ## Summarization pipeline model

`summarizeArticle` is an async orchestration over a black-box inference
engine.  We model one sequential call: the engine is an oracle mapping the
index of each chat-completion call to its outcome, and the observable
callback invocations are collected as an event trace. -/

/-- The `state` field of a `LoadingStatus` passed to `onLoadingUpdate`. -/
inductive LSt
  | loading
  | ready
  | error
deriving DecidableEq

/-- Which of the three prompts an inference call carries. -/
inductive CallKind
  | chunkSummary
  | combine
  | tagsCall
deriving DecidableEq

/-- Observable events of one `summarizeArticle` call. -/
inductive Ev
  | load (s : LSt)
  | prog (current total : Nat)
  | call (k : CallKind)
deriving DecidableEq

/-- The two error classes the orchestrator distinguishes: a message containing
`ContextWindowSizeExceededError` versus anything else. -/
inductive EngineErr
  | ctxError
  | otherError
deriving DecidableEq

/-- Module-level mutable state of `src/lib/summarize.ts`:
`chat`, `worker` (both tracked as presence), and `isInitializing`. -/
structure MState where
  chat : Bool
  worker : Bool
  isInitializing : Bool
deriving DecidableEq

/-- The external world of one call: outcome of engine initialization, the
loading-progress reports it emits, and the outcome of the n-th
chat-completion call. -/
structure Ctx where
  initOutcome : Except EngineErr Unit
  initReports : List Nat
  engine : Nat → Except EngineErr (List Char)

inductive InitRes
  | ok
  | failed (e : EngineErr)
  | hang
deriving DecidableEq

structure InitOut where
  res : InitRes
  st : MState
  evs : List Ev

/-- `initializeLLM`, as executed sequentially inside one `summarizeArticle`
call: return the memoized session, or poll forever if an initialization is
(impossibly, in sequential execution) already in flight, or initialize:
loading status, worker teardown/creation, progress reports, then session on
success (status `ready`) or teardown, status `error` and a throw on
failure; `isInitializing` is cleared in `finally`. -/
def initializeLLM (st : MState) (ctx : Ctx) : InitOut :=
  if st.chat then ⟨InitRes.ok, st, []⟩
  else if st.isInitializing then ⟨InitRes.hang, st, []⟩
  else
    let evs := Ev.load LSt.loading :: ctx.initReports.map (fun _ => Ev.load LSt.loading)
    match ctx.initOutcome with
    | Except.ok _ =>
      ⟨InitRes.ok, ⟨true, true, false⟩, evs ++ [Ev.load LSt.ready]⟩
    | Except.error e =>
      ⟨InitRes.failed e, ⟨false, false, false⟩, evs ++ [Ev.load LSt.error]⟩

/-- `cleanup()`: terminate the worker if present, null the session, clear the
initialization flag. -/
def cleanup (st : MState) : MState :=
  let st1 := if st.worker then { st with worker := false } else st
  { st1 with chat := false, isInitializing := false }

/-- Result of the per-chunk summarization loop. -/
inductive RC
  | ok (summs : List (List Char)) (cnt : Nat)
  | ctxFail
  | hard (e : EngineErr)

structure RCOut where
  evs : List Ev
  res : RC

/-- The `for` loop of `summarizeArticle` over the chunks: report progress
`(i+1, total)`, make the chunk-summary call, push the trimmed response; a
`ContextWindowSizeExceededError` reports an `error` status and aborts with
the embedded error result, any other failure is re-thrown. -/
def runChunks (engine : Nat → Except EngineErr (List Char)) (total : Nat) :
    List (List Char) → Nat → Nat → List (List Char) → RCOut
  | [], _, cnt, acc => ⟨[], RC.ok acc cnt⟩
  | _ :: rest, i, cnt, acc =>
    match engine cnt with
    | Except.ok s =>
      let r := runChunks engine total rest (i + 1) (cnt + 1) (acc ++ [trim s])
      ⟨Ev.prog (i + 1) total :: Ev.call CallKind.chunkSummary :: r.evs, r.res⟩
    | Except.error EngineErr.ctxError =>
      ⟨[Ev.prog (i + 1) total, Ev.call CallKind.chunkSummary, Ev.load LSt.error], RC.ctxFail⟩
    | Except.error EngineErr.otherError =>
      ⟨[Ev.prog (i + 1) total, Ev.call CallKind.chunkSummary], RC.hard EngineErr.otherError⟩

/-- How one `summarizeArticle` call ends: the final `return { summary, tags }`,
an early return with an error encoded in the result fields (length gate or
context-window abort), a thrown error, or divergence in the poll loop. -/
inductive SOutcome
  | ok (summary tags : List Char)
  | errResult (summary tags : List Char)
  | thrown (e : EngineErr)
  | hangs
deriving DecidableEq

structure SumRes where
  outcome : SOutcome
  events : List Ev
  state : MState

/-- `"Error: " + message` of the length gate, with the interpolated lengths. -/
def tooLongSummary (len : Nat) : List Char :=
  "Error: Article is too long (".toList ++ (Nat.repr len).toList
    ++ " characters). Maximum allowed length is 30000 characters.".toList

def tooLongTags : List Char := "Error: Article too long".toList

def ctxSummary : List Char :=
  "Error: Article is too long for processing. Please try with a shorter article.".toList

def ctxTags : List Char := "Error: Context window exceeded".toList
/-- The final tag-extraction step: report progress `(total, total)`, make the
tags call (its outcome is the last argument); on success return the final
result, on failure fall to the outer catch (cleanup, `error` status,
re-throw). -/
def tagsStep (finalSummary : List Char) (evs : List Ev) (total : Nat) (st2 : MState) :
    Except EngineErr (List Char) → SumRes
  | Except.ok s =>
    ⟨SOutcome.ok finalSummary (trim s), evs ++ [Ev.prog total total, Ev.call CallKind.tagsCall],
      st2⟩
  | Except.error e =>
    ⟨SOutcome.thrown e,
      evs ++ [Ev.prog total total, Ev.call CallKind.tagsCall, Ev.load LSt.error], cleanup st2⟩

/-- The combine step taken when more than one partial summary was produced:
make the combine call (its outcome is the last argument); on success carry
the trimmed combined summary into tag extraction, on failure fall to the
outer catch. -/
def combineStep (ctx : Ctx) (st2 : MState) (evs : List Ev) (cnt total : Nat) :
    Except EngineErr (List Char) → SumRes
  | Except.error e =>
    ⟨SOutcome.thrown e, evs ++ [Ev.call CallKind.combine, Ev.load LSt.error], cleanup st2⟩
  | Except.ok sc =>
    tagsStep (trim sc) (evs ++ [Ev.call CallKind.combine]) total st2 (ctx.engine (cnt + 1))

/-- Continuation of `summarizeArticle` after the chunk loop: a context-window
abort returns the embedded error result, a hard failure falls to the outer
catch, and a completed loop proceeds to combine (only when more than one
partial summary) and tag extraction. -/
def chunksDone (ctx : Ctx) (st2 : MState) (ievs : List Ev) (total : Nat) : RCOut → SumRes
  | ⟨cevs, RC.ctxFail⟩ => ⟨SOutcome.errResult ctxSummary ctxTags, ievs ++ cevs, st2⟩
  | ⟨cevs, RC.hard e⟩ =>
    ⟨SOutcome.thrown e, ievs ++ cevs ++ [Ev.load LSt.error], cleanup st2⟩
  | ⟨cevs, RC.ok summaries cnt⟩ =>
    if 1 < summaries.length then
      combineStep ctx st2 (ievs ++ cevs) cnt total (ctx.engine cnt)
    else
      tagsStep (summaries.headD []) (ievs ++ cevs) total st2 (ctx.engine cnt)

/-- Continuation of `summarizeArticle` after session initialization: a hang
diverges, an initialization failure falls to the outer catch (cleanup,
`error` status, re-throw), success runs the chunk loop over
`chunkText content` with `2 * N` total progress units. -/
def initDone (content : List Char) (ctx : Ctx) : InitOut → SumRes
  | ⟨InitRes.hang, ist, ievs⟩ => ⟨SOutcome.hangs, ievs, ist⟩
  | ⟨InitRes.failed e, ist, ievs⟩ =>
    ⟨SOutcome.thrown e, ievs ++ [Ev.load LSt.error], cleanup ist⟩
  | ⟨InitRes.ok, ist, ievs⟩ =>
    chunksDone ctx ist ievs ((chunkText content 10000).length * 2)
      (runChunks ctx.engine ((chunkText content 10000).length * 2) (chunkText content 10000)
        0 0 [])

/-- `summarizeArticle(content, callbacks)` from `src/lib/summarize.ts`:
length gate (30,000), session initialization, chunking (max 10,000),
per-chunk summaries, optional combine call when more than one partial
summary, tag extraction; the outer catch runs `cleanup`, reports an `error`
status and re-throws. -/
def summarizeArticle (content : List Char) (st : MState) (ctx : Ctx) : SumRes :=
  if 30000 < content.length then
    ⟨SOutcome.errResult (tooLongSummary content.length) tooLongTags, [Ev.load LSt.error], st⟩
  else
    initDone content ctx (initializeLLM st ctx)

/-- The sequence of inference calls in an event trace. -/
def callsOf (evs : List Ev) : List CallKind :=
  evs.filterMap (fun e => match e with | Ev.call k => some k | _ => none)

/-- The sequence of `(current, total)` progress-callback invocations. -/
def progsOf (evs : List Ev) : List (Nat × Nat) :=
  evs.filterMap (fun e => match e with | Ev.prog c t => some (c, t) | _ => none)

/-- The sequence of `state` values passed to `onLoadingUpdate`. -/
def loadsOf (evs : List Ev) : List LSt :=
  evs.filterMap (fun e => match e with | Ev.load s => some s | _ => none)

/-! ## Lemmas about the chunker -/

theorem joinAll_append (a b : List (List Char)) : joinAll (a ++ b) = joinAll a ++ joinAll b := by
  induction a with
  | nil => rfl
  | cons x xs ih => simp [joinAll, ih]

theorem stripWS_nil : stripWS [] = [] := rfl

theorem stripWS_append (a b : List Char) : stripWS (a ++ b) = stripWS a ++ stripWS b := by
  simp [stripWS, List.filter_append]

theorem stripWS_dropWhile (l : List Char) : stripWS (l.dropWhile isWS) = stripWS l := by
  induction l with
  | nil => rfl
  | cons c t ih =>
    rw [List.dropWhile_cons]
    by_cases hc : isWS c = true
    · rw [if_pos hc, ih]
      simp [stripWS, hc]
    · rw [if_neg hc]

theorem stripWS_reverse (l : List Char) : stripWS l.reverse = (stripWS l).reverse := by
  simp [stripWS, List.filter_reverse]

theorem stripWS_trim (l : List Char) : stripWS (trim l) = stripWS l := by
  unfold trim
  rw [stripWS_reverse, stripWS_dropWhile, stripWS_reverse, stripWS_dropWhile,
    List.reverse_reverse]

theorem trim_length_le (l : List Char) : (trim l).length ≤ l.length := by
  unfold trim
  rw [List.length_reverse]
  calc ((l.dropWhile isWS).reverse.dropWhile isWS).length
      ≤ (l.dropWhile isWS).reverse.length := dropWhile_length_le _ _
    _ = (l.dropWhile isWS).length := List.length_reverse _
    _ ≤ l.length := dropWhile_length_le _ _

theorem chunkLoop_strip (maxChunkSize : Nat) :
    ∀ (sents : List (List Char)) (cur : List Char) (acc : List (List Char)),
    stripWS (joinAll (chunkLoop maxChunkSize sents cur acc)) =
      stripWS (joinAll acc) ++ stripWS cur ++ stripWS (joinAll sents)
  | [], cur, acc => by
    rw [chunkLoop]
    by_cases hc : cur.isEmpty = true
    · rw [if_pos hc]
      rw [List.isEmpty_iff] at hc
      simp [hc, stripWS, joinAll]
    · rw [if_neg hc, joinAll_append, stripWS_append]
      simp [joinAll, stripWS_trim, stripWS_append, stripWS_nil]
  | s :: rest, cur, acc => by
    rw [chunkLoop]
    by_cases h1 : (cur ++ s).length ≤ maxChunkSize
    · rw [if_pos h1, chunkLoop_strip maxChunkSize rest (cur ++ s) acc]
      simp [joinAll, stripWS_append, List.append_assoc]
    · rw [if_neg h1]
      by_cases h2 : cur.isEmpty = true
      · rw [if_pos h2, chunkLoop_strip maxChunkSize rest s acc]
        rw [List.isEmpty_iff] at h2
        simp [h2, joinAll, stripWS_append, List.append_assoc, stripWS_nil]
      · rw [if_neg h2, chunkLoop_strip maxChunkSize rest s (acc ++ [trim cur])]
        rw [joinAll_append]
        simp [joinAll, stripWS_append, stripWS_trim, List.append_assoc]

theorem chunkLoop_mem (maxChunkSize : Nat) (S : List (List Char)) :
    ∀ (sents : List (List Char)) (cur : List Char) (acc : List (List Char)),
    (∀ s ∈ sents, s ∈ S) →
    (cur = [] ∨ cur.length ≤ maxChunkSize ∨ cur ∈ S) →
    (∀ ch ∈ acc, ch.length ≤ maxChunkSize ∨ ∃ s ∈ S, maxChunkSize < s.length ∧ ch = trim s) →
    ∀ ch ∈ chunkLoop maxChunkSize sents cur acc,
      ch.length ≤ maxChunkSize ∨ ∃ s ∈ S, maxChunkSize < s.length ∧ ch = trim s
  | [], cur, acc => by
    intro _ hcur hacc ch hch
    rw [chunkLoop] at hch
    by_cases hc : cur.isEmpty = true
    · rw [if_pos hc] at hch
      exact hacc ch hch
    · rw [if_neg hc] at hch
      rcases List.mem_append.mp hch with h | h
      · exact hacc ch h
      · have hch' : ch = trim cur := by simpa using h
        subst hch'
        rw [List.isEmpty_iff] at hc
        rcases hcur with h0 | hle | hmem
        · exact absurd h0 hc
        · exact Or.inl (Nat.le_trans (trim_length_le cur) hle)
        · by_cases hlen : cur.length ≤ maxChunkSize
          · exact Or.inl (Nat.le_trans (trim_length_le cur) hlen)
          · exact Or.inr ⟨cur, hmem, by omega, rfl⟩
  | s :: rest, cur, acc => by
    intro hsub hcur hacc
    rw [chunkLoop]
    have hsub' : ∀ x ∈ rest, x ∈ S := fun x hx => hsub x (List.mem_cons_of_mem _ hx)
    have hsS : s ∈ S := hsub s (List.mem_cons_self _ _)
    by_cases h1 : (cur ++ s).length ≤ maxChunkSize
    · rw [if_pos h1]
      exact chunkLoop_mem maxChunkSize S rest (cur ++ s) acc hsub' (Or.inr (Or.inl h1)) hacc
    · rw [if_neg h1]
      by_cases h2 : cur.isEmpty = true
      · rw [if_pos h2]
        exact chunkLoop_mem maxChunkSize S rest s acc hsub' (Or.inr (Or.inr hsS)) hacc
      · rw [if_neg h2]
        apply chunkLoop_mem maxChunkSize S rest s (acc ++ [trim cur]) hsub' (Or.inr (Or.inr hsS))
        intro ch hch
        rcases List.mem_append.mp hch with h | h
        · exact hacc ch h
        · have hch' : ch = trim cur := by simpa using h
          subst hch'
          rw [List.isEmpty_iff] at h2
          rcases hcur with h0 | hle | hmem
          · exact absurd h0 h2
          · exact Or.inl (Nat.le_trans (trim_length_le cur) hle)
          · by_cases hlen : cur.length ≤ maxChunkSize
            · exact Or.inl (Nat.le_trans (trim_length_le cur) hlen)
            · exact Or.inr ⟨cur, hmem, by omega, rfl⟩

theorem chunkLoop_ne_nil (maxChunkSize : Nat) :
    ∀ (sents : List (List Char)) (cur : List Char) (acc : List (List Char)),
    (∀ s ∈ sents, s ≠ []) →
    (cur ≠ [] ∨ acc ≠ [] ∨ sents ≠ []) →
    chunkLoop maxChunkSize sents cur acc ≠ []
  | [], cur, acc => by
    intro _ hne
    rw [chunkLoop]
    by_cases hc : cur.isEmpty = true
    · rw [if_pos hc]
      rw [List.isEmpty_iff] at hc
      rcases hne with h | h | h
      · exact absurd hc h
      · exact h
      · exact absurd rfl h
    · rw [if_neg hc]
      simp
  | s :: rest, cur, acc => by
    intro hmem _
    rw [chunkLoop]
    have hs : s ≠ [] := hmem s (List.mem_cons_self _ _)
    have hmem' : ∀ x ∈ rest, x ≠ [] := fun x hx => hmem x (List.mem_cons_of_mem _ hx)
    by_cases h1 : (cur ++ s).length ≤ maxChunkSize
    · rw [if_pos h1]
      exact chunkLoop_ne_nil maxChunkSize rest (cur ++ s) acc hmem'
        (Or.inl (by simp [hs]))
    · rw [if_neg h1]
      by_cases h2 : cur.isEmpty = true
      · rw [if_pos h2]
        exact chunkLoop_ne_nil maxChunkSize rest s acc hmem' (Or.inl hs)
      · rw [if_neg h2]
        exact chunkLoop_ne_nil maxChunkSize rest s (acc ++ [trim cur]) hmem'
          (Or.inr (Or.inl (by simp)))

theorem sentSplit_mem_ne_nil (l : List Char) : ∀ s ∈ sentSplit l, s ≠ [] := by
  induction l using sentSplit.induct with
  | case1 => intro s hs; simp [sentSplit] at hs
  | case2 c rest hterm ih =>
    intro s hs
    rw [sentSplit, if_pos hterm] at hs
    exact ih s hs
  | case3 c rest hterm hdrop =>
    intro s hs
    rw [sentSplit, if_neg hterm, hdrop] at hs
    simp at hs
  | case4 c rest hterm d ds hdrop ih =>
    intro s hs
    rw [sentSplit, if_neg hterm, hdrop] at hs
    rcases List.mem_cons.mp hs with h | h
    · subst h; simp
    · exact ih s h

theorem sentences_ne_nil (text : List Char) : sentences text ≠ [] := by
  unfold sentences
  split <;> simp

theorem sentences_mem_ne_nil (text : List Char) (h : text ≠ []) :
    ∀ s ∈ sentences text, s ≠ [] := by
  unfold sentences
  split
  · intro s hs
    rw [List.mem_singleton] at hs
    subst hs; exact h
  · next heq =>
    intro s hs
    exact sentSplit_mem_ne_nil text s (heq ▸ hs)

/-- C7: an input no longer than the maximum chunk size is returned as the
single chunk `[text]`, unchanged. -/
theorem chunkText_short (text : List Char) (maxChunkSize : Nat)
    (h : text.length ≤ maxChunkSize) :
    chunkText text maxChunkSize = [text] := by
  simp [chunkText, h]

theorem chunkText_short_witness :
    "Short text.".toList.length ≤ 10000 ∧
      chunkText "Short text.".toList 10000 = ["Short text.".toList] :=
  ⟨by decide, chunkText_short "Short text.".toList 10000 (by decide)⟩

/-- C4: for text longer than the maximum chunk size, `chunkText` returns a
non-empty ordered sequence; every chunk is within the maximum except one
that is (the trim of) a single over-length sentence; and the concatenation
of the chunks reproduces the sentence content of the text, ignoring
whitespace normalization. -/
theorem chunkText_reconstruct (text : List Char) (maxChunkSize : Nat)
    (h : maxChunkSize < text.length) :
    chunkText text maxChunkSize ≠ [] ∧
    (∀ ch ∈ chunkText text maxChunkSize,
      ch.length ≤ maxChunkSize ∨ ∃ s ∈ sentences text, maxChunkSize < s.length ∧ ch = trim s) ∧
    stripWS (joinAll (chunkText text maxChunkSize)) = stripWS (joinAll (sentences text)) := by
  have hgate : ¬ text.length ≤ maxChunkSize := by omega
  have htne : text ≠ [] := by
    intro he
    rw [he] at h
    simp at h
  rw [chunkText, if_neg hgate]
  refine ⟨?_, ?_, ?_⟩
  · exact chunkLoop_ne_nil maxChunkSize (sentences text) [] []
      (sentences_mem_ne_nil text htne) (Or.inr (Or.inr (sentences_ne_nil text)))
  · exact chunkLoop_mem maxChunkSize (sentences text) (sentences text) [] []
      (fun s hs => hs) (Or.inl rfl) (by intro ch hch; simp at hch)
  · rw [chunkLoop_strip]
    simp [joinAll, stripWS]

/-- `chunkText` never returns an empty sequence. -/
theorem chunkText_ne_nil (text : List Char) (maxChunkSize : Nat) :
    chunkText text maxChunkSize ≠ [] := by
  by_cases h : text.length ≤ maxChunkSize
  · rw [chunkText, if_pos h]
    simp
  · rw [chunkText, if_neg h]
    have htne : text ≠ [] := by
      intro he
      rw [he] at h
      simp at h
    exact chunkLoop_ne_nil maxChunkSize (sentences text) [] []
      (sentences_mem_ne_nil text htne) (Or.inr (Or.inr (sentences_ne_nil text)))

theorem chunkText_reconstruct_witness :
    3 < "ab.cd.".toList.length ∧
    (chunkText "ab.cd.".toList 3 ≠ [] ∧
    (∀ ch ∈ chunkText "ab.cd.".toList 3,
      ch.length ≤ 3 ∨ ∃ s ∈ sentences "ab.cd.".toList, 3 < s.length ∧ ch = trim s) ∧
    stripWS (joinAll (chunkText "ab.cd.".toList 3)) =
      stripWS (joinAll (sentences "ab.cd.".toList))) :=
  ⟨by decide, chunkText_reconstruct "ab.cd.".toList 3 (by decide)⟩

/-! ## Lemmas about the event trace of one summarization call -/

theorem callsOf_append (a b : List Ev) : callsOf (a ++ b) = callsOf a ++ callsOf b := by
  simp [callsOf, List.filterMap_append]

theorem progsOf_append (a b : List Ev) : progsOf (a ++ b) = progsOf a ++ progsOf b := by
  simp [progsOf, List.filterMap_append]

theorem loadsOf_append (a b : List Ev) : loadsOf (a ++ b) = loadsOf a ++ loadsOf b := by
  simp [loadsOf, List.filterMap_append]

theorem callsOf_initializeLLM (st : MState) (ctx : Ctx) :
    callsOf (initializeLLM st ctx).evs = [] := by
  rw [initializeLLM]
  split
  · rfl
  · split
    · rfl
    · split <;>
        simp [callsOf, List.filterMap_append, List.filterMap_map, Function.comp]

theorem progsOf_initializeLLM (st : MState) (ctx : Ctx) :
    progsOf (initializeLLM st ctx).evs = [] := by
  rw [initializeLLM]
  split
  · rfl
  · split
    · rfl
    · split <;>
        simp [progsOf, List.filterMap_append, List.filterMap_map, Function.comp]

/-- The progress pairs reported by `m` consecutive chunk steps starting after
index `i`, with fixed denominator `total`. -/
def expectedProgs (total : Nat) : Nat → Nat → List (Nat × Nat)
  | _, 0 => []
  | i, m + 1 => (i + 1, total) :: expectedProgs total (i + 1) m

theorem expectedProgs_length (total : Nat) :
    ∀ (m i : Nat), (expectedProgs total i m).length = m
  | 0, _ => rfl
  | m + 1, i => by
    rw [expectedProgs, List.length_cons, expectedProgs_length total m (i + 1)]

theorem expectedProgs_total (total : Nat) :
    ∀ (m i : Nat), ∀ p ∈ expectedProgs total i m, p.2 = total
  | 0, _ => by intro p hp; simp [expectedProgs] at hp
  | m + 1, i => by
    intro p hp
    rw [expectedProgs] at hp
    rcases List.mem_cons.mp hp with h | h
    · rw [h]
    · exact expectedProgs_total total m (i + 1) p h

theorem expectedProgs_fst (total : Nat) :
    ∀ (m i : Nat), (expectedProgs total i m).map Prod.fst = List.range' (i + 1) m
  | 0, _ => rfl
  | m + 1, i => by
    rw [expectedProgs, List.map_cons, expectedProgs_fst total m (i + 1),
      List.range'_succ (i + 1) m 1]

theorem callsOf_cons_prog (a b : Nat) (l : List Ev) :
    callsOf (Ev.prog a b :: l) = callsOf l := rfl

theorem callsOf_cons_load (s : LSt) (l : List Ev) :
    callsOf (Ev.load s :: l) = callsOf l := rfl

theorem callsOf_cons_call (k : CallKind) (l : List Ev) :
    callsOf (Ev.call k :: l) = k :: callsOf l := rfl

theorem progsOf_cons_prog (a b : Nat) (l : List Ev) :
    progsOf (Ev.prog a b :: l) = (a, b) :: progsOf l := rfl

theorem progsOf_cons_load (s : LSt) (l : List Ev) :
    progsOf (Ev.load s :: l) = progsOf l := rfl

theorem progsOf_cons_call (k : CallKind) (l : List Ev) :
    progsOf (Ev.call k :: l) = progsOf l := rfl

theorem loadsOf_cons_prog (a b : Nat) (l : List Ev) :
    loadsOf (Ev.prog a b :: l) = loadsOf l := rfl

theorem loadsOf_cons_load (s : LSt) (l : List Ev) :
    loadsOf (Ev.load s :: l) = s :: loadsOf l := rfl

theorem loadsOf_cons_call (k : CallKind) (l : List Ev) :
    loadsOf (Ev.call k :: l) = loadsOf l := rfl

/-- Shape of the chunk loop when it completes every chunk: the events are the
`(progress, call)` pairs, no loading statuses are emitted, and the result
collects one trimmed summary per chunk. -/
theorem runChunks_ok_shape (engine : Nat → Except EngineErr (List Char)) (total : Nat) :
    ∀ (chunks : List (List Char)) (i cnt : Nat) (acc : List (List Char))
      (summs : List (List Char)) (cnt' : Nat),
    (runChunks engine total chunks i cnt acc).res = RC.ok summs cnt' →
    callsOf (runChunks engine total chunks i cnt acc).evs =
        List.replicate chunks.length CallKind.chunkSummary ∧
    progsOf (runChunks engine total chunks i cnt acc).evs =
        expectedProgs total i chunks.length ∧
    loadsOf (runChunks engine total chunks i cnt acc).evs = [] ∧
    summs.length = acc.length + chunks.length ∧ cnt' = cnt + chunks.length
  | [], i, cnt, acc, summs, cnt' => by
    intro h
    simp only [runChunks] at h ⊢
    cases h
    exact ⟨rfl, rfl, rfl, by simp, rfl⟩
  | c :: rest, i, cnt, acc, summs, cnt' => by
    intro h
    cases he : engine cnt with
    | ok s =>
      simp only [runChunks, he] at h ⊢
      obtain ⟨h1, h2, h3, h4, h5⟩ :=
        runChunks_ok_shape engine total rest (i + 1) (cnt + 1) (acc ++ [trim s]) summs cnt' h
      refine ⟨?_, ?_, ?_, ?_, ?_⟩
      · rw [callsOf_cons_prog, callsOf_cons_call, h1, List.length_cons, List.replicate_succ]
      · rw [progsOf_cons_prog, progsOf_cons_call, h2, List.length_cons, expectedProgs]
      · rw [loadsOf_cons_prog, loadsOf_cons_call, h3]
      · rw [h4, List.length_append, List.length_cons]
        simp
        omega
      · rw [h5, List.length_cons]
        omega
    | error e =>
      cases e with
      | ctxError =>
        simp only [runChunks, he] at h
        exact absurd h (by simp)
      | otherError =>
        simp only [runChunks, he] at h
        exact absurd h (by simp)

/-- Shape of the chunk loop when the first engine failure occurs at chunk
index `k` (all earlier chunk calls succeed): a context-window error aborts
with `ctxFail` after reporting an `error` status; any other error is
re-thrown as `hard`.  In both cases exactly `k + 1` chunk-summary calls were
made and no further ones. -/
theorem runChunks_firstFail (engine : Nat → Except EngineErr (List Char)) (total : Nat)
    (e : EngineErr) :
    ∀ (chunks : List (List Char)) (i cnt : Nat) (acc : List (List Char)) (k : Nat),
    k < chunks.length →
    (∀ j, j < k → ∃ s, engine (cnt + j) = Except.ok s) →
    engine (cnt + k) = Except.error e →
    (runChunks engine total chunks i cnt acc).res =
        (match e with
         | EngineErr.ctxError => RC.ctxFail
         | EngineErr.otherError => RC.hard EngineErr.otherError) ∧
    callsOf (runChunks engine total chunks i cnt acc).evs =
        List.replicate (k + 1) CallKind.chunkSummary ∧
    progsOf (runChunks engine total chunks i cnt acc).evs = expectedProgs total i (k + 1) ∧
    loadsOf (runChunks engine total chunks i cnt acc).evs =
        (match e with
         | EngineErr.ctxError => [LSt.error]
         | EngineErr.otherError => [])
  | [], i, cnt, acc, k => by
    intro hk _ _
    simp at hk
  | c :: rest, i, cnt, acc, k => by
    intro hk hok herr
    cases k with
    | zero =>
      rw [Nat.add_zero] at herr
      cases e with
      | ctxError =>
        simp only [runChunks, herr]
        refine ⟨?_, ?_, ?_, ?_⟩ <;> trivial
      | otherError =>
        simp only [runChunks, herr]
        refine ⟨?_, ?_, ?_, ?_⟩ <;> trivial
    | succ k' =>
      obtain ⟨s, hs⟩ := hok 0 (Nat.succ_pos k')
      rw [Nat.add_zero] at hs
      simp only [runChunks, hs]
      have hok' : ∀ j, j < k' → ∃ s, engine (cnt + 1 + j) = Except.ok s := by
        intro j hj
        have := hok (j + 1) (by omega)
        rwa [show cnt + (j + 1) = cnt + 1 + j by omega] at this
      have herr' : engine (cnt + 1 + k') = Except.error e := by
        rwa [show cnt + (k' + 1) = cnt + 1 + k' by omega] at herr
      obtain ⟨h1, h2, h3, h4⟩ :=
        runChunks_firstFail engine total e rest (i + 1) (cnt + 1) (acc ++ [trim s]) k'
          (by simp only [List.length_cons] at hk; omega) hok' herr'
      refine ⟨h1, ?_, ?_, ?_⟩
      · rw [callsOf_cons_prog, callsOf_cons_call, h2]
        simp [List.replicate_succ]
      · rw [progsOf_cons_prog, progsOf_cons_call, h3]
        rfl
      · rw [loadsOf_cons_prog, loadsOf_cons_call, h4]


/-- Decomposition of a fully successful `summarizeArticle` run: the chunk
loop completed with one partial summary per chunk, and the event trace is
the initialization events, the chunk-loop events, the optional combine
call, and the final progress report plus tag-extraction call. -/
theorem summarize_ok_split (content : List Char) (st : MState) (ctx : Ctx) (s t : List Char)
    (h : (summarizeArticle content st ctx).outcome = SOutcome.ok s t) :
    ∃ summs cnt,
      (runChunks ctx.engine ((chunkText content 10000).length * 2)
          (chunkText content 10000) 0 0 []).res = RC.ok summs cnt ∧
      summs.length = (chunkText content 10000).length ∧
      (summarizeArticle content st ctx).events =
        (initializeLLM st ctx).evs
        ++ (runChunks ctx.engine ((chunkText content 10000).length * 2)
              (chunkText content 10000) 0 0 []).evs
        ++ (if 1 < (chunkText content 10000).length then [Ev.call CallKind.combine] else [])
        ++ [Ev.prog ((chunkText content 10000).length * 2) ((chunkText content 10000).length * 2),
            Ev.call CallKind.tagsCall] := by
  by_cases hgate : 30000 < content.length
  · rw [summarizeArticle, if_pos hgate] at h
    exact absurd h (by simp)
  · rw [summarizeArticle, if_neg hgate] at h ⊢
    rcases hio : initializeLLM st ctx with ⟨ir, ist, ievs⟩
    rw [hio] at h
    cases ir with
    | hang => simp only [initDone] at h; exact absurd h (by simp)
    | failed e => simp only [initDone] at h; exact absurd h (by simp)
    | ok =>
      simp only [initDone] at h ⊢
      rcases hrc : runChunks ctx.engine ((chunkText content 10000).length * 2)
          (chunkText content 10000) 0 0 [] with ⟨cevs, rres⟩
      rw [hrc] at h
      cases rres with
      | ctxFail => simp only [chunksDone] at h; exact absurd h (by simp)
      | hard e => simp only [chunksDone] at h; exact absurd h (by simp)
      | ok summs cnt =>
        simp only [chunksDone] at h ⊢
        have hlen : summs.length = (chunkText content 10000).length := by
          have := runChunks_ok_shape ctx.engine ((chunkText content 10000).length * 2)
            (chunkText content 10000) 0 0 [] summs cnt (by rw [hrc])
          simpa using this.2.2.2.1
        refine ⟨summs, cnt, rfl, hlen, ?_⟩
        by_cases hn : 1 < summs.length
        · rw [if_pos hn] at h ⊢
          rw [if_pos (hlen ▸ hn)]
          cases hcomb : ctx.engine cnt with
          | error e =>
            rw [hcomb] at h
            simp only [combineStep] at h
            exact absurd h (by simp)
          | ok sc =>
            rw [hcomb] at h
            simp only [combineStep] at h ⊢
            cases htag : ctx.engine (cnt + 1) with
            | error e =>
              rw [htag] at h
              simp only [tagsStep] at h
              exact absurd h (by simp)
            | ok stag =>
              simp [tagsStep, List.append_assoc]
        · rw [if_neg hn] at h ⊢
          rw [if_neg (hlen ▸ hn)]
          cases htag : ctx.engine cnt with
          | error e =>
            rw [htag] at h
            simp only [tagsStep] at h
            exact absurd h (by simp)
          | ok stag =>
            simp [tagsStep, List.append_assoc]

/-- C1: for content longer than 30,000 characters, `summarizeArticle` returns
(rather than throws) a result whose summary begins with
`Error: Article is too long` and whose tags equal `Error: Article too long`,
invokes `onLoadingUpdate` exactly once with state `error`, and performs no
inference-engine call. -/
theorem summarize_lengthGate (content : List Char) (st : MState) (ctx : Ctx)
    (h : 30000 < content.length) :
    (summarizeArticle content st ctx).outcome =
      SOutcome.errResult (tooLongSummary content.length) tooLongTags ∧
    (∃ r, tooLongSummary content.length = "Error: Article is too long".toList ++ r) ∧
    tooLongTags = "Error: Article too long".toList ∧
    (summarizeArticle content st ctx).events = [Ev.load LSt.error] ∧
    callsOf (summarizeArticle content st ctx).events = [] := by
  rw [summarizeArticle, if_pos h]
  refine ⟨rfl, ⟨" (".toList ++ (Nat.repr content.length).toList
      ++ " characters). Maximum allowed length is 30000 characters.".toList, ?_⟩, rfl, rfl, rfl⟩
  rw [tooLongSummary]
  rw [show "Error: Article is too long (".toList
      = "Error: Article is too long".toList ++ " (".toList from by decide]
  simp [List.append_assoc]

theorem summarize_lengthGate_witness :
    30000 < (List.replicate 30001 'a').length ∧
    (summarizeArticle (List.replicate 30001 'a') ⟨false, false, false⟩
        ⟨Except.ok (), [], fun _ => Except.ok []⟩).events = [Ev.load LSt.error] :=
  ⟨by rw [List.length_replicate]; omega,
    (summarize_lengthGate (List.replicate 30001 'a') ⟨false, false, false⟩
      ⟨Except.ok (), [], fun _ => Except.ok []⟩ (by rw [List.length_replicate]; omega)).2.2.2.1⟩

/-- C2: a successful `summarizeArticle` run over `N` chunks performs exactly
the `N` chunk-summary calls, then one combine call exactly when `N > 1`,
then one tag-extraction call — `2` calls for one chunk, `N + 2` otherwise,
in that order. -/
theorem summarize_callCounts (content : List Char) (st : MState) (ctx : Ctx) (s t : List Char)
    (h : (summarizeArticle content st ctx).outcome = SOutcome.ok s t) :
    callsOf (summarizeArticle content st ctx).events =
      List.replicate (chunkText content 10000).length CallKind.chunkSummary
        ++ (if 1 < (chunkText content 10000).length then [CallKind.combine] else [])
        ++ [CallKind.tagsCall] := by
  obtain ⟨summs, cnt, hres, hlen, hevs⟩ := summarize_ok_split content st ctx s t h
  obtain ⟨h1, _, _, _, _⟩ := runChunks_ok_shape ctx.engine _ _ _ _ _ _ _ hres
  rw [hevs, callsOf_append, callsOf_append, callsOf_append, callsOf_initializeLLM, h1]
  by_cases hN : 1 < (chunkText content 10000).length
  · rw [if_pos hN, if_pos hN]
    simp [callsOf, List.append_assoc]
  · rw [if_neg hN, if_neg hN]
    simp [callsOf, List.append_assoc]

theorem summarize_callCounts_witness :
    (summarizeArticle "Hi.".toList ⟨false, false, false⟩
        ⟨Except.ok (), [], fun _ => Except.ok ['s']⟩).outcome = SOutcome.ok ['s'] ['s'] ∧
    callsOf (summarizeArticle "Hi.".toList ⟨false, false, false⟩
        ⟨Except.ok (), [], fun _ => Except.ok ['s']⟩).events =
      List.replicate (chunkText "Hi.".toList 10000).length CallKind.chunkSummary
        ++ (if 1 < (chunkText "Hi.".toList 10000).length then [CallKind.combine] else [])
        ++ [CallKind.tagsCall] :=
  ⟨by decide, summarize_callCounts "Hi.".toList ⟨false, false, false⟩
    ⟨Except.ok (), [], fun _ => Except.ok ['s']⟩ ['s'] ['s'] (by decide)⟩

/-- C3 (corrected): a successful `summarizeArticle` run over `N` chunks fires
`onSummarizationProgress` exactly `N + 1` times — not `2N` times — once per
chunk with `current = 1, …, N` and once before tag extraction with
`current = 2N`; `total` is fixed at `2N` on every invocation, `current` is
strictly increasing, and the last invocation carries `current = 2N`. -/
theorem summarize_progressTrace (content : List Char) (st : MState) (ctx : Ctx)
    (s t : List Char)
    (h : (summarizeArticle content st ctx).outcome = SOutcome.ok s t) :
    (progsOf (summarizeArticle content st ctx).events).length =
        (chunkText content 10000).length + 1 ∧
    (∀ p ∈ progsOf (summarizeArticle content st ctx).events,
        p.2 = (chunkText content 10000).length * 2) ∧
    ((progsOf (summarizeArticle content st ctx).events).map Prod.fst).Pairwise (· < ·) ∧
    (progsOf (summarizeArticle content st ctx).events).getLast? =
        some ((chunkText content 10000).length * 2, (chunkText content 10000).length * 2) := by
  obtain ⟨summs, cnt, hres, hlen, hevs⟩ := summarize_ok_split content st ctx s t h
  obtain ⟨_, h2, _, _, _⟩ := runChunks_ok_shape ctx.engine _ _ _ _ _ _ _ hres
  have hN1 : 1 ≤ (chunkText content 10000).length := by
    have := chunkText_ne_nil content 10000
    cases hc : chunkText content 10000 with
    | nil => exact absurd hc this
    | cons a l => simp [hc]
  have hprogs : progsOf (summarizeArticle content st ctx).events =
      expectedProgs ((chunkText content 10000).length * 2) 0 (chunkText content 10000).length
        ++ [((chunkText content 10000).length * 2, (chunkText content 10000).length * 2)] := by
    rw [hevs, progsOf_append, progsOf_append, progsOf_append, progsOf_initializeLLM, h2]
    have hif : progsOf (if 1 < (chunkText content 10000).length
        then [Ev.call CallKind.combine] else []) = [] := by
      split <;> rfl
    rw [hif]
    simp [progsOf]
  refine ⟨?_, ?_, ?_, ?_⟩
  · rw [hprogs, List.length_append, expectedProgs_length]
    simp
  · intro p hp
    rw [hprogs] at hp
    rcases List.mem_append.mp hp with h | h
    · exact expectedProgs_total _ _ _ p h
    · rw [List.mem_singleton] at h
      rw [h]
  · rw [hprogs, List.map_append, expectedProgs_fst]
    rw [List.pairwise_append]
    refine ⟨List.pairwise_lt_range' _ _, by simp, ?_⟩
    intro x hx y hy
    rw [List.mem_range'_1] at hx
    simp at hy
    omega
  · rw [hprogs, List.getLast?_concat]

theorem summarize_progressTrace_witness :
    (summarizeArticle "Hi.".toList ⟨false, false, false⟩
        ⟨Except.ok (), [], fun _ => Except.ok ['s']⟩).outcome = SOutcome.ok ['s'] ['s'] ∧
    (progsOf (summarizeArticle "Hi.".toList ⟨false, false, false⟩
        ⟨Except.ok (), [], fun _ => Except.ok ['s']⟩).events).length =
      (chunkText "Hi.".toList 10000).length + 1 :=
  ⟨by decide, (summarize_progressTrace "Hi.".toList ⟨false, false, false⟩
    ⟨Except.ok (), [], fun _ => Except.ok ['s']⟩ ['s'] ['s'] (by decide)).1⟩

/-! ## A two-chunk scenario, computed symbolically -/

theorem dropWhile_nonTerm_replicate (a : Char) (ha : isTerm a = false) (n : Nat)
    (rest : List Char) :
    List.dropWhile (fun x => !isTerm x) (List.replicate n a ++ '.' :: rest) = '.' :: rest := by
  induction n with
  | zero => simp [List.dropWhile_cons, isTerm]
  | succ n ih =>
    rw [List.replicate_succ, List.cons_append, List.dropWhile_cons]
    simp [ha, ih]

theorem takeWhile_nonTerm_replicate (a : Char) (ha : isTerm a = false) (n : Nat)
    (rest : List Char) :
    List.takeWhile (fun x => !isTerm x) (List.replicate n a ++ '.' :: rest) =
      List.replicate n a := by
  induction n with
  | zero => simp [List.takeWhile_cons, isTerm]
  | succ n ih =>
    rw [List.replicate_succ, List.cons_append, List.takeWhile_cons]
    simp [ha, ih, List.replicate_succ]

/-- One regex match step on a text of the shape
`a · aⁿ · "." · rest` where `a` is not a terminator: the match is the run of
`a`s with the dot and the following terminator run, and scanning resumes
after the terminators. -/
theorem sentSplit_block (a : Char) (ha : isTerm a = false) (n : Nat) (rest : List Char) :
    sentSplit (a :: (List.replicate n a ++ '.' :: rest)) =
      (a :: (List.replicate n a ++ '.' :: List.takeWhile isTerm rest))
        :: sentSplit (List.dropWhile isTerm rest) := by
  rw [sentSplit, if_neg (by simp [ha]), dropWhile_nonTerm_replicate a ha n rest]
  rw [takeWhile_nonTerm_replicate a ha n rest]

/-- First sentence of the two-chunk scenario: 5000 `a`s and a dot. -/
def cexSentA : List Char := 'a' :: (List.replicate 4999 'a' ++ ['.'])

/-- Second sentence of the two-chunk scenario: 5001 `b`s and a dot. -/
def cexSentB : List Char := 'b' :: (List.replicate 5000 'b' ++ ['.'])

/-- A 10,003-character article of two sentences, chunked into two chunks. -/
def cexContent : List Char := 'a' :: (List.replicate 4999 'a' ++ '.' :: cexSentB)

/-- An engine that initializes successfully and answers every call with `s`. -/
def cexCtx : Ctx := ⟨Except.ok (), [], fun _ => Except.ok ['s']⟩

theorem cexSentA_length : cexSentA.length = 5001 := by
  rw [cexSentA, List.length_cons, List.length_append, List.length_replicate]
  rfl

theorem cexSentB_length : cexSentB.length = 5002 := by
  rw [cexSentB, List.length_cons, List.length_append, List.length_replicate]
  rfl

theorem cexContent_length : cexContent.length = 10003 := by
  rw [cexContent, List.length_cons, List.length_append, List.length_replicate,
    List.length_cons, cexSentB_length]

theorem cex_sentSplit : sentSplit cexContent = [cexSentA, cexSentB] := by
  rw [cexContent, sentSplit_block 'a' (by decide) 4999 cexSentB]
  rw [show List.takeWhile isTerm cexSentB = [] from by
    rw [cexSentB, List.takeWhile_cons, if_neg (by decide)]]
  rw [show List.dropWhile isTerm cexSentB = cexSentB from by
    rw [cexSentB, List.dropWhile_cons, if_neg (by decide)]]
  rw [show cexSentB = 'b' :: (List.replicate 5000 'b' ++ '.' :: ([] : List Char)) from rfl]
  rw [sentSplit_block 'b' (by decide) 5000 []]
  rw [show sentSplit ([].dropWhile isTerm) = [] from by rw [List.dropWhile_nil, sentSplit]]
  rfl

theorem cex_sentences : sentences cexContent = [cexSentA, cexSentB] := by
  rw [sentences.eq_def, cex_sentSplit]

theorem cex_chunkText : chunkText cexContent 10000 = [trim cexSentA, trim cexSentB] := by
  have hc1 : (([] : List Char) ++ cexSentA).length ≤ 10000 := by
    rw [List.nil_append, cexSentA_length]
    omega
  have hc2 : ¬ (cexSentA ++ cexSentB).length ≤ 10000 := by
    rw [List.length_append, cexSentA_length, cexSentB_length]
    omega
  have hc3 : ¬ cexSentA.isEmpty = true := by
    rw [cexSentA, List.isEmpty_cons]
    decide
  have hc4 : ¬ cexSentB.isEmpty = true := by
    rw [cexSentB, List.isEmpty_cons]
    decide
  rw [chunkText, if_neg (by rw [cexContent_length]; omega), cex_sentences]
  rw [chunkLoop, if_pos hc1, List.nil_append]
  rw [chunkLoop, if_neg hc2, if_neg hc3, List.nil_append]
  rw [chunkLoop, if_neg hc4]
  rfl

theorem cex_summarize : summarizeArticle cexContent ⟨false, false, false⟩ cexCtx =
    ⟨SOutcome.ok ['s'] ['s'],
     [Ev.load LSt.loading, Ev.load LSt.ready,
      Ev.prog 1 4, Ev.call CallKind.chunkSummary,
      Ev.prog 2 4, Ev.call CallKind.chunkSummary,
      Ev.call CallKind.combine, Ev.prog 4 4, Ev.call CallKind.tagsCall],
     ⟨true, true, false⟩⟩ := by
  rw [summarizeArticle, if_neg (by rw [cexContent_length]; omega)]
  rw [show initializeLLM ⟨false, false, false⟩ cexCtx =
      ⟨InitRes.ok, ⟨true, true, false⟩, [Ev.load LSt.loading, Ev.load LSt.ready]⟩ from rfl]
  simp only [initDone]
  rw [cex_chunkText]
  rfl

/-- C3 counterexample: on this two-chunk article with an engine that always
succeeds, the run is successful and the progress callback fires 3 times
(`(1,4)`, `(2,4)`, `(4,4)`), not `2N = 4` times as claimed. -/
theorem summarize_progress_cex :
    (summarizeArticle cexContent ⟨false, false, false⟩ cexCtx).outcome =
        SOutcome.ok ['s'] ['s'] ∧
    (chunkText cexContent 10000).length = 2 ∧
    progsOf (summarizeArticle cexContent ⟨false, false, false⟩ cexCtx).events =
        [(1, 4), (2, 4), (4, 4)] ∧
    (progsOf (summarizeArticle cexContent ⟨false, false, false⟩ cexCtx).events).length ≠
        2 * (chunkText cexContent 10000).length := by
  refine ⟨by rw [cex_summarize], by rw [cex_chunkText]; rfl, ?_, ?_⟩
  · rw [cex_summarize]
    rfl
  · rw [cex_summarize, cex_chunkText]
    decide

theorem cleanup_eq (st : MState) : cleanup st = ⟨false, false, false⟩ := by
  cases hw : st.worker <;> simp [cleanup, hw]

/-- C5: when the `k`-th chunk's inference call fails with a context-window
error (all earlier chunk calls having succeeded), `summarizeArticle`
returns normally with the error-encoded result whose tags single out the
capacity case, reports an `error` status, and makes no inference call
beyond the `k + 1` chunk-summary calls already made — no remaining chunk,
no combine, no tag extraction. -/
theorem summarize_ctxAbort (content : List Char) (st : MState) (ctx : Ctx) (k : Nat)
    (hlen : content.length ≤ 30000)
    (hinit : (initializeLLM st ctx).res = InitRes.ok)
    (hk : k < (chunkText content 10000).length)
    (hok : ∀ j, j < k → ∃ s, ctx.engine j = Except.ok s)
    (hctx : ctx.engine k = Except.error EngineErr.ctxError) :
    (summarizeArticle content st ctx).outcome = SOutcome.errResult ctxSummary ctxTags ∧
    ctxTags = "Error: Context window exceeded".toList ∧
    callsOf (summarizeArticle content st ctx).events =
      List.replicate (k + 1) CallKind.chunkSummary ∧
    (loadsOf (summarizeArticle content st ctx).events).getLast? = some LSt.error := by
  rw [summarizeArticle, if_neg (by omega)]
  have hci : callsOf (initializeLLM st ctx).evs = [] := callsOf_initializeLLM st ctx
  rcases hio : initializeLLM st ctx with ⟨ir, ist, ievs⟩
  rw [hio] at hinit hci
  have hir : ir = InitRes.ok := hinit
  subst hir
  simp only [initDone]
  obtain ⟨h1, h2, _, h4⟩ := runChunks_firstFail ctx.engine
    ((chunkText content 10000).length * 2) EngineErr.ctxError (chunkText content 10000)
    0 0 [] k hk (by simpa using hok) (by simpa using hctx)
  rcases hrc : runChunks ctx.engine ((chunkText content 10000).length * 2)
      (chunkText content 10000) 0 0 [] with ⟨cevs, rres⟩
  rw [hrc] at h1 h2 h4
  have hres : rres = RC.ctxFail := h1
  subst hres
  simp only [chunksDone]
  refine ⟨by trivial, rfl, ?_, ?_⟩
  · rw [callsOf_append, hci, h2]
    rfl
  · rw [loadsOf_append, h4, List.getLast?_concat]

theorem summarize_ctxAbort_witness :
    "Hi.".toList.length ≤ 30000 ∧
    (initializeLLM ⟨true, true, false⟩
        ⟨Except.ok (), [], fun _ => Except.error EngineErr.ctxError⟩).res = InitRes.ok ∧
    0 < (chunkText "Hi.".toList 10000).length ∧
    (summarizeArticle "Hi.".toList ⟨true, true, false⟩
        ⟨Except.ok (), [], fun _ => Except.error EngineErr.ctxError⟩).outcome =
      SOutcome.errResult ctxSummary ctxTags :=
  ⟨by decide, by decide, by decide,
    (summarize_ctxAbort "Hi.".toList ⟨true, true, false⟩
      ⟨Except.ok (), [], fun _ => Except.error EngineErr.ctxError⟩ 0 (by decide) (by decide)
      (by decide) (fun j hj => absurd hj (by omega)) rfl).1⟩

/-- C6: every thrown (hard) failure of `summarizeArticle` leaves the module
torn down — worker gone, session null, initialization flag cleared — and
reports an `error` status as its last loading update; and a non-capacity
failure of a chunk call (all earlier chunk calls having succeeded) indeed
surfaces as a thrown failure with that error. -/
theorem summarize_hardFailure (content : List Char) (st : MState) (ctx : Ctx) :
    (∀ e, (summarizeArticle content st ctx).outcome = SOutcome.thrown e →
      (summarizeArticle content st ctx).state = ⟨false, false, false⟩ ∧
      (loadsOf (summarizeArticle content st ctx).events).getLast? = some LSt.error) ∧
    (∀ k, content.length ≤ 30000 → (initializeLLM st ctx).res = InitRes.ok →
      k < (chunkText content 10000).length →
      (∀ j, j < k → ∃ s, ctx.engine j = Except.ok s) →
      ctx.engine k = Except.error EngineErr.otherError →
      (summarizeArticle content st ctx).outcome = SOutcome.thrown EngineErr.otherError) := by
  constructor
  · intro e he
    by_cases hgate : 30000 < content.length
    · rw [summarizeArticle, if_pos hgate] at he
      exact absurd he (by simp)
    · rw [summarizeArticle, if_neg hgate] at he ⊢
      rcases hio : initializeLLM st ctx with ⟨ir, ist, ievs⟩
      rw [hio] at he
      cases ir with
      | hang =>
        simp only [initDone] at he
        exact absurd he (by simp)
      | failed e2 =>
        simp only [initDone] at he ⊢
        refine ⟨cleanup_eq ist, ?_⟩
        have hl : loadsOf (ievs ++ [Ev.load LSt.error]) = loadsOf ievs ++ [LSt.error] := by
          rw [loadsOf_append]
          rfl
        rw [hl, List.getLast?_concat]
      | ok =>
        simp only [initDone] at he ⊢
        rcases hrc : runChunks ctx.engine ((chunkText content 10000).length * 2)
            (chunkText content 10000) 0 0 [] with ⟨cevs, rres⟩
        rw [hrc] at he
        cases rres with
        | ctxFail =>
          simp only [chunksDone] at he
          exact absurd he (by simp)
        | hard e2 =>
          simp only [chunksDone] at he ⊢
          refine ⟨cleanup_eq ist, ?_⟩
          have hl : loadsOf (ievs ++ cevs ++ [Ev.load LSt.error]) =
              loadsOf (ievs ++ cevs) ++ [LSt.error] := by
            rw [loadsOf_append (ievs ++ cevs)]
            rfl
          rw [hl, List.getLast?_concat]
        | ok summs cnt =>
          simp only [chunksDone] at he ⊢
          by_cases hn : 1 < summs.length
          · rw [if_pos hn] at he ⊢
            cases hcomb : ctx.engine cnt with
            | error e2 =>
              rw [hcomb] at he
              simp only [combineStep] at he ⊢
              refine ⟨cleanup_eq ist, ?_⟩
              have hl : loadsOf (ievs ++ cevs ++ [Ev.call CallKind.combine, Ev.load LSt.error]) =
                  (loadsOf (ievs ++ cevs) ++ [LSt.error]) := by
                rw [loadsOf_append (ievs ++ cevs)]
                rfl
              rw [hl, List.getLast?_concat]
            | ok sc =>
              rw [hcomb] at he
              simp only [combineStep] at he ⊢
              cases htag : ctx.engine (cnt + 1) with
              | error e3 =>
                rw [htag] at he
                simp only [tagsStep] at he ⊢
                refine ⟨cleanup_eq ist, ?_⟩
                have hl : loadsOf (ievs ++ cevs ++ [Ev.call CallKind.combine]
                      ++ [Ev.prog ((chunkText content 10000).length * 2)
                            ((chunkText content 10000).length * 2),
                          Ev.call CallKind.tagsCall, Ev.load LSt.error]) =
                    (loadsOf (ievs ++ cevs ++ [Ev.call CallKind.combine]) ++ [LSt.error]) := by
                  rw [loadsOf_append (ievs ++ cevs ++ [Ev.call CallKind.combine])]
                  rfl
                rw [hl, List.getLast?_concat]
              | ok stag =>
                rw [htag] at he
                simp only [tagsStep] at he
                exact absurd he (by simp)
          · rw [if_neg hn] at he ⊢
            cases htag : ctx.engine cnt with
            | error e3 =>
              rw [htag] at he
              simp only [tagsStep] at he ⊢
              refine ⟨cleanup_eq ist, ?_⟩
              have hl : loadsOf (ievs ++ cevs
                    ++ [Ev.prog ((chunkText content 10000).length * 2)
                          ((chunkText content 10000).length * 2),
                        Ev.call CallKind.tagsCall, Ev.load LSt.error]) =
                  (loadsOf (ievs ++ cevs) ++ [LSt.error]) := by
                rw [loadsOf_append (ievs ++ cevs)]
                rfl
              rw [hl, List.getLast?_concat]
            | ok stag =>
              rw [htag] at he
              simp only [tagsStep] at he
              exact absurd he (by simp)
  · intro k hlen hinit hk hok herr
    rw [summarizeArticle, if_neg (by omega)]
    rcases hio : initializeLLM st ctx with ⟨ir, ist, ievs⟩
    rw [hio] at hinit
    have hir : ir = InitRes.ok := hinit
    subst hir
    simp only [initDone]
    obtain ⟨h1, _, _, _⟩ := runChunks_firstFail ctx.engine
      ((chunkText content 10000).length * 2) EngineErr.otherError (chunkText content 10000)
      0 0 [] k hk (by simpa using hok) (by simpa using herr)
    rcases hrc : runChunks ctx.engine ((chunkText content 10000).length * 2)
        (chunkText content 10000) 0 0 [] with ⟨cevs, rres⟩
    rw [hrc] at h1
    have hres : rres = RC.hard EngineErr.otherError := h1
    subst hres
    simp only [chunksDone]

theorem summarize_hardFailure_witness :
    (summarizeArticle "Hi.".toList ⟨true, true, false⟩
        ⟨Except.ok (), [], fun _ => Except.error EngineErr.otherError⟩).outcome =
      SOutcome.thrown EngineErr.otherError ∧
    (summarizeArticle "Hi.".toList ⟨true, true, false⟩
        ⟨Except.ok (), [], fun _ => Except.error EngineErr.otherError⟩).state =
      ⟨false, false, false⟩ ∧
    (loadsOf (summarizeArticle "Hi.".toList ⟨true, true, false⟩
        ⟨Except.ok (), [], fun _ => Except.error EngineErr.otherError⟩).events).getLast? =
      some LSt.error := by
  have hthrown := (summarize_hardFailure "Hi.".toList ⟨true, true, false⟩
    ⟨Except.ok (), [], fun _ => Except.error EngineErr.otherError⟩).2 0 (by decide) (by decide)
    (by decide) (fun j hj => absurd hj (by omega)) rfl
  exact ⟨hthrown,
    ((summarize_hardFailure "Hi.".toList ⟨true, true, false⟩
      ⟨Except.ok (), [], fun _ => Except.error EngineErr.otherError⟩).1
      EngineErr.otherError hthrown).1,
    ((summarize_hardFailure "Hi.".toList ⟨true, true, false⟩
      ⟨Except.ok (), [], fun _ => Except.error EngineErr.otherError⟩).1
      EngineErr.otherError hthrown).2⟩

/-- C9: `cleanup` is idempotent and safe in any state: it always leaves the
module in the no-session state (no session, no worker, flag cleared), in
particular also when called with no session or worker, and calling it
twice has the same effect as calling it once. -/
theorem cleanup_idempotent (st : MState) :
    cleanup st = ⟨false, false, false⟩ ∧
    cleanup (cleanup st) = cleanup st ∧
    cleanup ⟨false, false, false⟩ = ⟨false, false, false⟩ := by
  refine ⟨cleanup_eq st, ?_, ?_⟩
  · rw [cleanup_eq, cleanup_eq]
  · rw [cleanup_eq]

/-! ## Concurrent initialization model

`initializeLLM` runs on the JavaScript event loop: a call executes
atomically from entry to its first `await` (the engine-creation await for
the initiator, each `setTimeout` of the poll loop for a waiter).  A system
state is the shared module state (`chat`, `isInitializing`) plus one
program counter per caller; a step is one such atomic slice by one
caller. -/

/-- Program counter of one `initializeLLM` caller: not yet entered, waiting
in the poll loop, awaiting engine creation as the initiator, returned with
a value (`chat` at resumption, possibly null), or rejected. -/
inductive PC (σ : Type)
  | start
  | polling
  | initAwait
  | retOk (s : Option σ)
  | retErr
deriving DecidableEq

structure Sys (σ : Type) where
  chat : Option σ
  isInit : Bool
  pcs : List (PC σ)

/-- One atomic slice by caller `i`:
entry with a session present returns it immediately; entry during an
in-flight initialization enters the poll loop; entry otherwise claims the
flag, rebuilds the worker and suspends on engine creation; a poll tick
re-polls while the flag is held and otherwise returns `chat`; the
initiator resumes with a session (publish, clear flag, return it) or with
a failure (teardown, clear flag, throw). -/
inductive Step {σ : Type} : Nat → Sys σ → Sys σ → Prop
  | startHasChat {s : Sys σ} {i : Nat} {v : σ} :
      s.pcs[i]? = some PC.start → s.chat = some v →
      Step i s { s with pcs := s.pcs.set i (PC.retOk (some v)) }
  | startWait {s : Sys σ} {i : Nat} :
      s.pcs[i]? = some PC.start → s.chat = none → s.isInit = true →
      Step i s { s with pcs := s.pcs.set i PC.polling }
  | startInit {s : Sys σ} {i : Nat} :
      s.pcs[i]? = some PC.start → s.chat = none → s.isInit = false →
      Step i s ⟨none, true, s.pcs.set i PC.initAwait⟩
  | pollSpin {s : Sys σ} {i : Nat} :
      s.pcs[i]? = some PC.polling → s.isInit = true →
      Step i s s
  | pollDone {s : Sys σ} {i : Nat} :
      s.pcs[i]? = some PC.polling → s.isInit = false →
      Step i s { s with pcs := s.pcs.set i (PC.retOk s.chat) }
  | initOk {s : Sys σ} {i : Nat} (v : σ) :
      s.pcs[i]? = some PC.initAwait →
      Step i s ⟨some v, false, s.pcs.set i (PC.retOk (some v))⟩
  | initFail {s : Sys σ} {i : Nat} :
      s.pcs[i]? = some PC.initAwait →
      Step i s ⟨none, false, s.pcs.set i PC.retErr⟩

/-- Some caller moves. -/
def SysStep {σ : Type} (s s2 : Sys σ) : Prop := ∃ i, Step i s s2

/-- `n` callers about to call `initializeLLM` against a fresh module. -/
def sysInit (σ : Type) (n : Nat) : Sys σ := ⟨none, false, List.replicate n PC.start⟩

def Reach (σ : Type) (n : Nat) (s : Sys σ) : Prop :=
  Relation.ReflTransGen SysStep (sysInit σ n) s

def NoInitAwait {σ : Type} (s : Sys σ) : Prop :=
  ∀ i : Nat, s.pcs[i]? ≠ some (PC.initAwait : PC σ)

/-- System invariant: at most one caller awaits engine creation, none does
when the flag is down, and none does once a session is published. -/
def SysInv {σ : Type} (s : Sys σ) : Prop :=
  (∀ i j : Nat, s.pcs[i]? = some (PC.initAwait : PC σ) →
    s.pcs[j]? = some (PC.initAwait : PC σ) → i = j) ∧
  (s.isInit = false → NoInitAwait s) ∧
  (∀ v, s.chat = some v → NoInitAwait s)

theorem set_no_new_initAwait {σ : Type} (pcs : List (PC σ)) (i : Nat) (x : PC σ)
    (hx : x ≠ PC.initAwait) (j : Nat) (h : (pcs.set i x)[j]? = some (PC.initAwait : PC σ)) :
    pcs[j]? = some (PC.initAwait : PC σ) := by
  by_cases hij : i = j
  · subst hij
    by_cases hlt : i < pcs.length
    · rw [List.getElem?_set_self hlt] at h
      exact absurd (Option.some.inj h) hx
    · rw [List.set_eq_of_length_le (by omega)] at h
      exact h
  · rwa [List.getElem?_set_ne hij] at h

theorem sysInv_init {σ : Type} (n : Nat) : SysInv (sysInit σ n) := by
  have hno : NoInitAwait (sysInit σ n) := by
    intro i h
    rw [sysInit] at h
    simp only [List.getElem?_replicate] at h
    split at h
    · exact absurd (Option.some.inj h) (by simp)
    · exact absurd h (by simp)
  exact ⟨fun i j hi _ => absurd hi (hno i), fun _ => hno, fun v _ => hno⟩

theorem sysInv_step {σ : Type} {s s2 : Sys σ} (hinv : SysInv s) (h : SysStep s s2) :
    SysInv s2 := by
  obtain ⟨i, hstep⟩ := h
  obtain ⟨h1, h2, h3⟩ := hinv
  cases hstep with
  | startHasChat hi hv =>
    refine ⟨?_, ?_, ?_⟩
    · intro a b ha hb
      exact h1 a b (set_no_new_initAwait _ _ _ (by simp) _ ha)
        (set_no_new_initAwait _ _ _ (by simp) _ hb)
    · intro hf a ha
      exact h2 hf a (set_no_new_initAwait _ _ _ (by simp) _ ha)
    · intro v hv2 a ha
      exact h3 v hv2 a (set_no_new_initAwait _ _ _ (by simp) _ ha)
  | startWait hi hv hf =>
    refine ⟨?_, ?_, ?_⟩
    · intro a b ha hb
      exact h1 a b (set_no_new_initAwait _ _ _ (by simp) _ ha)
        (set_no_new_initAwait _ _ _ (by simp) _ hb)
    · intro hf2
      simp only at hf2
      rw [hf] at hf2
      exact absurd hf2 (by simp)
    · intro v hv2
      simp only at hv2
      rw [hv] at hv2
      exact absurd hv2 (by simp)
  | startInit hi hv hf =>
    have hno : NoInitAwait s := h2 hf
    refine ⟨?_, ?_, ?_⟩
    · intro a b ha hb
      simp only at ha hb
      by_cases hai : a = i
      · by_cases hbi : b = i
        · rw [hai, hbi]
        · rw [List.getElem?_set_ne (fun hh => hbi hh.symm)] at hb
          exact absurd hb (hno b)
      · rw [List.getElem?_set_ne (fun hh => hai hh.symm)] at ha
        exact absurd ha (hno a)
    · intro hf2
      exact absurd hf2 (by simp)
    · intro v hv2
      exact absurd hv2 (by simp)
  | pollSpin hi hf =>
    exact ⟨h1, h2, h3⟩
  | pollDone hi hf =>
    have hno : NoInitAwait s := h2 hf
    have hno2 : NoInitAwait { s with pcs := s.pcs.set i (PC.retOk s.chat) } := by
      intro a ha
      exact absurd (set_no_new_initAwait _ _ _ (by simp) _ ha) (hno a)
    exact ⟨fun a b ha _ => absurd ha (hno2 a), fun _ => hno2, fun v _ => hno2⟩
  | initOk v hi =>
    have hlt : i < s.pcs.length := (List.getElem?_eq_some.mp hi).1
    have hno2 : NoInitAwait (⟨some v, false, s.pcs.set i (PC.retOk (some v))⟩ : Sys σ) := by
      intro a ha
      simp only at ha
      have ha2 := set_no_new_initAwait _ _ _ (by simp) _ ha
      have hai : a = i := h1 a i ha2 hi
      rw [hai, List.getElem?_set_self hlt] at ha
      exact absurd (Option.some.inj ha) (by simp)
    exact ⟨fun a b ha _ => absurd ha (hno2 a), fun _ => hno2, fun v2 _ => hno2⟩
  | initFail hi =>
    have hlt : i < s.pcs.length := (List.getElem?_eq_some.mp hi).1
    have hno2 : NoInitAwait (⟨none, false, s.pcs.set i PC.retErr⟩ : Sys σ) := by
      intro a ha
      simp only at ha
      have ha2 := set_no_new_initAwait _ _ _ (by simp) _ ha
      have hai : a = i := h1 a i ha2 hi
      rw [hai, List.getElem?_set_self hlt] at ha
      exact absurd (Option.some.inj ha) (by simp)
    exact ⟨fun a b ha _ => absurd ha (hno2 a), fun _ => hno2, fun v2 _ => hno2⟩

theorem reach_sysInv {σ : Type} (n : Nat) (s : Sys σ) (hr : Reach σ n s) : SysInv s := by
  induction hr with
  | refl => exact sysInv_init n
  | tail _ hstep ih => exact sysInv_step ih hstep

/-- C8: on every reachable state of `n` concurrent `initializeLLM` callers —
(1) at most one caller is awaiting engine creation (at most one
initialization in flight);
(2) a caller entering while a session exists resolves immediately with that
session, changing nothing else (no new initialization);
(3) a waiting caller can only keep polling while the initialization flag is
held;
(4) once the flag is down and a session `v` is published, a waiting
caller's next step resolves it with exactly that session `v`;
(5) a published session is never replaced by any step. -/
theorem initializeLLM_concurrent {σ : Type} (n : Nat) (s : Sys σ) (hr : Reach σ n s) :
    (∀ i j : Nat, s.pcs[i]? = some (PC.initAwait : PC σ) →
      s.pcs[j]? = some (PC.initAwait : PC σ) → i = j) ∧
    (∀ (i : Nat) (v : σ) (s2 : Sys σ), s.chat = some v → s.pcs[i]? = some (PC.start : PC σ) →
      Step i s s2 → s2 = { s with pcs := s.pcs.set i (PC.retOk (some v)) }) ∧
    (∀ (i : Nat) (s2 : Sys σ), s.pcs[i]? = some (PC.polling : PC σ) → s.isInit = true →
      Step i s s2 → s2 = s) ∧
    (∀ (i : Nat) (v : σ) (s2 : Sys σ), s.pcs[i]? = some (PC.polling : PC σ) →
      s.isInit = false → s.chat = some v →
      Step i s s2 → s2 = { s with pcs := s.pcs.set i (PC.retOk (some v)) }) ∧
    (∀ (i : Nat) (v : σ) (s2 : Sys σ), s.chat = some v → Step i s s2 → s2.chat = some v) := by
  obtain ⟨h1, _, h3⟩ := reach_sysInv n s hr
  refine ⟨h1, ?_, ?_, ?_, ?_⟩
  · intro i v s2 hv hi hstep
    cases hstep with
    | startHasChat hi2 hv2 =>
      rw [hv] at hv2
      rw [Option.some.inj hv2]
    | startWait hi2 hv2 hf2 => rw [hv] at hv2; exact absurd hv2 (by simp)
    | startInit hi2 hv2 hf2 => rw [hv] at hv2; exact absurd hv2 (by simp)
    | pollSpin hi2 hf2 => rw [hi] at hi2; exact absurd (Option.some.inj hi2) (by simp)
    | pollDone hi2 hf2 => rw [hi] at hi2; exact absurd (Option.some.inj hi2) (by simp)
    | initOk v2 hi2 => rw [hi] at hi2; exact absurd (Option.some.inj hi2) (by simp)
    | initFail hi2 => rw [hi] at hi2; exact absurd (Option.some.inj hi2) (by simp)
  · intro i s2 hi hf hstep
    cases hstep with
    | startHasChat hi2 hv2 => rw [hi] at hi2; exact absurd (Option.some.inj hi2) (by simp)
    | startWait hi2 hv2 hf2 => rw [hi] at hi2; exact absurd (Option.some.inj hi2) (by simp)
    | startInit hi2 hv2 hf2 => rw [hi] at hi2; exact absurd (Option.some.inj hi2) (by simp)
    | pollSpin hi2 hf2 => rfl
    | pollDone hi2 hf2 => rw [hf] at hf2; exact absurd hf2 (by simp)
    | initOk v2 hi2 => rw [hi] at hi2; exact absurd (Option.some.inj hi2) (by simp)
    | initFail hi2 => rw [hi] at hi2; exact absurd (Option.some.inj hi2) (by simp)
  · intro i v s2 hi hf hv hstep
    cases hstep with
    | startHasChat hi2 hv2 => rw [hi] at hi2; exact absurd (Option.some.inj hi2) (by simp)
    | startWait hi2 hv2 hf2 => rw [hi] at hi2; exact absurd (Option.some.inj hi2) (by simp)
    | startInit hi2 hv2 hf2 => rw [hi] at hi2; exact absurd (Option.some.inj hi2) (by simp)
    | pollSpin hi2 hf2 => rw [hf] at hf2; exact absurd hf2 (by simp)
    | pollDone hi2 hf2 => rw [hv]
    | initOk v2 hi2 => rw [hi] at hi2; exact absurd (Option.some.inj hi2) (by simp)
    | initFail hi2 => rw [hi] at hi2; exact absurd (Option.some.inj hi2) (by simp)
  · intro i v s2 hv hstep
    cases hstep with
    | startHasChat hi2 hv2 => exact hv
    | startWait hi2 hv2 hf2 => exact hv
    | startInit hi2 hv2 hf2 => rw [hv] at hv2; exact absurd hv2 (by simp)
    | pollSpin hi2 hf2 => exact hv
    | pollDone hi2 hf2 => exact hv
    | initOk v2 hi2 => exact absurd hi2 (h3 v hv i)
    | initFail hi2 => exact absurd hi2 (h3 v hv i)

theorem initializeLLM_concurrent_witness :
    Reach Nat 2 ⟨none, true, [PC.initAwait, PC.polling]⟩ ∧
    (∀ i j : Nat,
      (⟨none, true, [PC.initAwait, PC.polling]⟩ : Sys Nat).pcs[i]? =
          some (PC.initAwait : PC Nat) →
      (⟨none, true, [PC.initAwait, PC.polling]⟩ : Sys Nat).pcs[j]? =
          some (PC.initAwait : PC Nat) → i = j) :=
  have hr : Reach Nat 2 ⟨none, true, [PC.initAwait, PC.polling]⟩ :=
    Relation.ReflTransGen.tail
      (Relation.ReflTransGen.tail Relation.ReflTransGen.refl
        ⟨0, Step.startInit rfl rfl rfl⟩)
      ⟨1, Step.startWait rfl rfl rfl⟩
  ⟨hr, (initializeLLM_concurrent 2 ⟨none, true, [PC.initAwait, PC.polling]⟩ hr).1⟩

/-- C10: when the initiator's engine creation fails while another caller is
polling, the failing step rejects only the initiator and leaves the waiter
polling over a cleared module; the waiter's next step then resolves it
normally with the null session rather than propagating the failure. -/
theorem initializeLLM_waiterNullOnFailure {σ : Type} (s : Sys σ) (i j : Nat) (hij : i ≠ j)
    (hi : s.pcs[i]? = some (PC.polling : PC σ))
    (hj : s.pcs[j]? = some (PC.initAwait : PC σ)) :
    Step j s ⟨none, false, s.pcs.set j PC.retErr⟩ ∧
    (s.pcs.set j PC.retErr)[i]? = some (PC.polling : PC σ) ∧
    (s.pcs.set j PC.retErr)[j]? = some (PC.retErr : PC σ) ∧
    (∀ s2 : Sys σ, Step i ⟨none, false, s.pcs.set j PC.retErr⟩ s2 →
      s2 = ⟨none, false, (s.pcs.set j PC.retErr).set i (PC.retOk none)⟩) := by
  have hjlt : j < s.pcs.length := (List.getElem?_eq_some.mp hj).1
  have hi2 : (s.pcs.set j PC.retErr)[i]? = some (PC.polling : PC σ) := by
    rw [List.getElem?_set_ne (fun hh => hij hh.symm)]
    exact hi
  refine ⟨Step.initFail hj, hi2, ?_, ?_⟩
  · rw [List.getElem?_set_self hjlt]
  · intro s2 hstep
    cases hstep with
    | startHasChat hi3 hv3 => exact absurd hv3 (by simp)
    | startWait hi3 hv3 hf3 => exact absurd hf3 (by simp)
    | startInit hi3 hv3 hf3 =>
      rw [hi2] at hi3
      exact absurd (Option.some.inj hi3) (by simp)
    | pollSpin hi3 hf3 => exact absurd hf3 (by simp)
    | pollDone hi3 hf3 => rfl
    | initOk v2 hi3 =>
      rw [hi2] at hi3
      exact absurd (Option.some.inj hi3) (by simp)
    | initFail hi3 =>
      rw [hi2] at hi3
      exact absurd (Option.some.inj hi3) (by simp)

theorem initializeLLM_waiterNullOnFailure_witness :
    (0 : Nat) ≠ 1 ∧
    ((⟨none, true, [PC.polling, PC.initAwait]⟩ : Sys Nat).pcs[0]? =
      some (PC.polling : PC Nat)) ∧
    ((⟨none, true, [PC.polling, PC.initAwait]⟩ : Sys Nat).pcs[1]? =
      some (PC.initAwait : PC Nat)) ∧
    Step 1 (⟨none, true, [PC.polling, PC.initAwait]⟩ : Sys Nat)
      ⟨none, false, ([PC.polling, PC.initAwait] : List (PC Nat)).set 1 PC.retErr⟩ ∧
    (([PC.polling, PC.initAwait] : List (PC Nat)).set 1 PC.retErr)[1]? =
      some (PC.retErr : PC Nat) :=
  have h := initializeLLM_waiterNullOnFailure
    (⟨none, true, [PC.polling, PC.initAwait]⟩ : Sys Nat) 0 1 (by decide) rfl rfl
  ⟨by decide, rfl, rfl, h.1, h.2.2.1⟩
